import Mathlib

/-!
Verification of the httpdl core against its specification.

The development shallowly embeds the three core pieces of the program:
* the token-bucket rate limiter (`src/token_bucket.rs`),
* the quota-aware stream copy (`src/copy_with_speedlimit.rs`),
* the per-job download sequence of the dispatcher (`src/downloader.rs`).

Machine reals (`f64`) are modelled as rationals `ℚ`, wall-clock elapsed time
between calls is passed explicitly (the Rust code derives it from a stored
`Instant` timestamp), and the potentially non-terminating copy loop is
modelled with explicit fuel, where `none` stands for running out of fuel.
A Rust panic is modelled as `Option.none`.
-/

/-- State of `TokenBucket` from `src/token_bucket.rs`.

The Rust struct also stores `timestamp : Instant`; here the elapsed time
since the previous call is instead passed explicitly to `take`.
`remaining` is `f64` in Rust, modelled as `ℚ`. -/
structure TokenBucket where
  fill_rate : Nat
  capacity : Nat
  remaining : ℚ
deriving Repr, DecidableEq

/-- `TokenBucket::with_capacity`. Panics (modelled as `none`) when
`rate != 0 && capacity == 0`; otherwise the fields are initialised with
`remaining = 0`. -/
def TokenBucket.with_capacity (rate cap : Nat) : Option TokenBucket :=
  if rate ≠ 0 ∧ cap = 0 then none
  else some ⟨rate, cap, 0⟩

/-- `TokenBucket::new`: both fill rate and capacity set to `rate`. -/
def TokenBucket.new (rate : Nat) : Option TokenBucket :=
  TokenBucket.with_capacity rate rate

/-- The refill step of `TokenBucket::take`:
`(self.remaining + delta_fill).min(self.capacity as f64)` where
`delta_fill = duration_seconds(delta) * fill_rate`. -/
def TokenBucket.refill (b : TokenBucket) (elapsed : ℚ) : ℚ :=
  min (b.remaining + elapsed * (b.fill_rate : ℚ)) (b.capacity : ℚ)

/-- `TokenBucket::take`. Returns the number of granted tokens and the
updated bucket. `elapsed` is the time since the previous call in seconds.
The Rust cast `self.remaining.floor() as usize` saturates negative values
to `0`, which `Int.toNat` mirrors. -/
def TokenBucket.take (b : TokenBucket) (elapsed : ℚ) (amount : Nat) :
    Nat × TokenBucket :=
  if b.fill_rate = 0 then (amount, b)
  else
    let refilled := b.refill elapsed
    let taken := min (⌊refilled⌋.toNat) amount
    let debited := max (refilled - (taken : ℚ)) 0
    (taken, ⟨b.fill_rate, b.capacity, debited⟩)

/-- Runs a sequence of `take` calls, each given as an (elapsed-time, requested
amount) pair; returns the total granted amount and the final bucket. -/
def TokenBucket.takeSeq (b : TokenBucket) : List (ℚ × Nat) → Nat × TokenBucket
  | [] => (0, b)
  | (e, a) :: rest =>
    let step := b.take e a
    let tail := step.2.takeSeq rest
    (step.1 + tail.1, tail.2)

/-- Internal buffer size of `copy_with_speedlimit`:
`let mut buf = [0; 64 * 1024]`. -/
def BUFFER_SIZE : Nat := 64 * 1024

/-- IO error kinds as seen by the copy loop: `ErrorKind::Interrupted` is
treated specially, every other kind is collapsed into `other` with an
arbitrary code. -/
inductive ErrKind where
  | interrupted
  | other (code : Nat)
deriving Repr, DecidableEq

/-- An IO error, characterised by its kind (`e.kind()` in Rust). -/
structure IoErr where
  kind : ErrKind
deriving Repr, DecidableEq

/-- Outcome of one `reader.read(&mut part)` call: `Ok` with the bytes placed
into the buffer and the reader state afterwards, or `Err` with the error and
the reader state afterwards. -/
inductive ReadResult (α σ : Type) where
  | ok (data : List α) (s : σ)
  | err (e : IoErr) (s : σ)

/-- The per-iteration clamp of `copy_with_speedlimit` (line 26):
`get_speed_quota(buf.len()).min(buf.len())`. `quota i r` models the value
the speed-quota function returns on its `i`-th call when asked for `r`
bytes. -/
def quotaLimit (quota : Nat → Nat → Nat) (i : Nat) : Nat :=
  min (quota i BUFFER_SIZE) BUFFER_SIZE

/-- `copy_with_speedlimit` from `src/copy_with_speedlimit.rs`.

The reader is a state `σ` with a step function `read`; the writer is a state
`ω` whose `write_all` either errors or returns the updated state. The loop
may fail to terminate (a quota that is forever `0`), so it is modelled with
explicit fuel counting loop iterations; `none` means the fuel ran out. `i`
counts the calls made to the quota function, `written` accumulates the total
bytes written. A read of `Ok(0)` ends the copy with `Ok(written)`; an
`Interrupted` read error restarts the iteration; any other read error, and
any write error, is returned. -/
def copy_with_speedlimit {α σ ω : Type} (read : σ → Nat → ReadResult α σ)
    (write_all : ω → List α → Except IoErr ω) (quota : Nat → Nat → Nat) :
    Nat → Nat → σ → ω → Nat → Option (Except IoErr (Nat × ω))
  | 0, _, _, _, _ => none
  | fuel + 1, i, rs, ws, written =>
    if quotaLimit quota i = 0 then
      copy_with_speedlimit read write_all quota fuel (i + 1) rs ws written
    else
      match read rs (quotaLimit quota i) with
      | .ok [] _ => some (.ok (written, ws))
      | .ok (d :: ds) rs2 =>
        match write_all ws (d :: ds) with
        | .error e => some (.error e)
        | .ok ws2 =>
          copy_with_speedlimit read write_all quota fuel (i + 1) rs2 ws2
            (written + (d :: ds).length)
      | .err e rs2 =>
        if e.kind = ErrKind.interrupted then
          copy_with_speedlimit read write_all quota fuel (i + 1) rs2 ws written
        else some (.error e)

/-- A reader over an in-memory byte sequence (like `Cursor`): a `read` with
a buffer of size `limit` yields the next `min limit length` bytes and never
fails. -/
def listRead {α : Type} (s : List α) (limit : Nat) : ReadResult α (List α) :=
  .ok (s.take limit) (s.drop limit)

/-- A writer that appends everything to an in-memory buffer and never
fails. -/
def listWrite {α : Type} (w : List α) (data : List α) :
    Except IoErr (List α) := .ok (w ++ data)

/-- One scripted reader behaviour: either the next chunk of data or an
error of the given kind. -/
inductive ReadEv (α : Type) where
  | chunk (data : List α)
  | fail (k : ErrKind)
deriving Repr

/-- Script-driven reader used to exercise the copy loop on concrete
scenarios; an exhausted script keeps reporting end of stream. -/
def scriptRead {α : Type} :
    List (ReadEv α) → Nat → ReadResult α (List (ReadEv α))
  | [], _ => .ok [] []
  | .chunk l :: rest, limit => .ok (l.take limit) rest
  | .fail k :: rest, _ => .err ⟨k⟩ rest

/-- A writer whose `write_all` always fails with a non-interrupted error. -/
def failWrite {α ω : Type} (code : Nat) (_ : ω) (_ : List α) :
    Except IoErr ω := .error ⟨.other code⟩

/-- Concrete reader for exercising the copy loop on natural-number bytes. -/
def c8Read : List (ReadEv Nat) → Nat → ReadResult Nat (List (ReadEv Nat)) :=
  scriptRead

/-- Concrete always-failing writer over natural-number bytes. -/
def c8Write : List Nat → List Nat → Except IoErr (List Nat) := failWrite 5

/-- Concrete unlimited quota function. -/
def c8Quota : Nat → Nat → Nat := fun _ r => r

/-- `Progress` from `src/downloader.rs`: status of a download job. -/
inductive Progress (ε : Type) where
  | started
  | finished (result : Except ε Unit)
deriving Repr

/-- `download_file` from `src/downloader.rs`: open the source stream, create
the destination file, copy under the speed limiter, flush. Each fallible
step is passed as data: `open_src` and `create_dest` are the outcomes of
resolving the HTTP body and creating the file, `copyStep` abstracts the
speed-limited copy (returning the byte count), `flushStep` the final
buffered-writer flush. The `?` operator propagates the first error. -/
def download_file {ε σ ω : Type} (open_src : Except ε σ)
    (create_dest : Except ε ω) (copyStep : σ → ω → Except ε Nat)
    (flushStep : ω → Except ε Unit) : Except ε Unit :=
  match open_src with
  | .error e => .error e
  | .ok src =>
    match create_dest with
    | .error e => .error e
    | .ok dest =>
      match copyStep src dest with
      | .error e => .error e
      | .ok _ => flushStep dest

/-- The body of the per-job task spawned by `download_files`
(`src/downloader.rs`, lines 132–143), modelled as the list of events fed to
the notifier: `Started` before the download, then `Finished` carrying the
download's result. -/
def run_job {ε σ ω : Type} (i : Nat) (url name : String)
    (open_src : Except ε σ) (create_dest : Except ε ω)
    (copyStep : σ → ω → Except ε Nat) (flushStep : ω → Except ε Unit) :
    List (Nat × String × String × Progress ε) :=
  [(i, url, name, Progress.started),
   (i, url, name,
     Progress.finished (download_file open_src create_dest copyStep flushStep))]

/-! Helper lemmas about a single `take` call. -/

theorem TokenBucket.refill_le_capacity (b : TokenBucket) (e : ℚ) :
    b.refill e ≤ (b.capacity : ℚ) :=
  min_le_right _ _

theorem TokenBucket.refill_le_add (b : TokenBucket) (e : ℚ) :
    b.refill e ≤ b.remaining + e * (b.fill_rate : ℚ) :=
  min_le_left _ _

theorem TokenBucket.refill_nonneg (b : TokenBucket) (e : ℚ)
    (hrem : 0 ≤ b.remaining) (he : 0 ≤ e) : 0 ≤ b.refill e := by
  refine le_min (by positivity) (by positivity)

/-- When the rate is nonzero, the granted amount is bounded by the refilled
token count. -/
theorem TokenBucket.take_fst_le_refill (b : TokenBucket) (e : ℚ) (a : Nat)
    (hrate : b.fill_rate ≠ 0) (hrem : 0 ≤ b.remaining) (he : 0 ≤ e) :
    ((b.take e a).1 : ℚ) ≤ b.refill e := by
  have h0 : 0 ≤ b.refill e := b.refill_nonneg e hrem he
  simp only [TokenBucket.take, hrate, reduceIte]
  push_cast
  refine le_trans (min_le_left _ _) ?_
  have h2 : (⌊b.refill e⌋.toNat : ℤ) = ⌊b.refill e⌋ :=
    Int.toNat_of_nonneg (Int.floor_nonneg.mpr h0)
  have h3 : ((⌊b.refill e⌋.toNat : ℤ) : ℚ) ≤ b.refill e := by
    rw [h2]; exact Int.floor_le _
  exact_mod_cast h3

theorem TokenBucket.take_fst (b : TokenBucket) (e : ℚ) (a : Nat)
    (hrate : b.fill_rate ≠ 0) :
    (b.take e a).1 = min (⌊b.refill e⌋.toNat) a := by
  simp only [TokenBucket.take, hrate, reduceIte]

theorem TokenBucket.take_snd_remaining (b : TokenBucket) (e : ℚ) (a : Nat)
    (hrate : b.fill_rate ≠ 0) :
    (b.take e a).2.remaining
      = max (b.refill e - ((b.take e a).1 : ℚ)) 0 := by
  simp only [TokenBucket.take, hrate, reduceIte]

theorem TokenBucket.take_snd_fields (b : TokenBucket) (e : ℚ) (a : Nat) :
    (b.take e a).2.fill_rate = b.fill_rate ∧
    (b.take e a).2.capacity = b.capacity := by
  by_cases hrate : b.fill_rate = 0 <;> simp [TokenBucket.take, hrate]

/-- One `take` call conserves tokens: granted plus leftover is bounded by the
previous leftover plus what time refilled. -/
theorem TokenBucket.take_telescope (b : TokenBucket) (e : ℚ) (a : Nat)
    (hrate : b.fill_rate ≠ 0) (hrem : 0 ≤ b.remaining) (he : 0 ≤ e) :
    ((b.take e a).1 : ℚ) + (b.take e a).2.remaining
      ≤ b.remaining + e * (b.fill_rate : ℚ) := by
  have hle := b.take_fst_le_refill e a hrate hrem he
  have hsnd := b.take_snd_remaining e a hrate
  have hmax : max (b.refill e - ((b.take e a).1 : ℚ)) 0
      = b.refill e - ((b.take e a).1 : ℚ) :=
    max_eq_left (by linarith)
  rw [hsnd, hmax]
  have := b.refill_le_add e
  linarith

theorem TokenBucket.take_snd_remaining_nonneg (b : TokenBucket) (e : ℚ)
    (a : Nat) (hrate : b.fill_rate ≠ 0) : 0 ≤ (b.take e a).2.remaining := by
  rw [b.take_snd_remaining e a hrate]; exact le_max_right _ _

/-- Telescoped form of the bounded-grant property over a call sequence. -/
theorem TokenBucket.takeSeq_telescope (calls : List (ℚ × Nat)) :
    ∀ b : TokenBucket, b.fill_rate ≠ 0 → 0 ≤ b.remaining →
    (∀ p ∈ calls, 0 ≤ p.1) →
    ((b.takeSeq calls).1 : ℚ) + (b.takeSeq calls).2.remaining
      ≤ b.remaining + (b.fill_rate : ℚ) * (calls.map Prod.fst).sum := by
  induction calls with
  | nil => intro b _ _ _; simp [TokenBucket.takeSeq]
  | cons p rest ih =>
    intro b hrate hrem hpos
    obtain ⟨e, a⟩ := p
    have he : 0 ≤ e := hpos (e, a) (List.mem_cons_self _ _)
    have hrest : ∀ q ∈ rest, 0 ≤ q.1 := fun q hq =>
      hpos q (List.mem_cons_of_mem _ hq)
    have hfields := b.take_snd_fields e a
    have hrate2 : (b.take e a).2.fill_rate ≠ 0 := by rw [hfields.1]; exact hrate
    have hrem2 := b.take_snd_remaining_nonneg e a hrate
    have ihx := ih (b.take e a).2 hrate2 hrem2 hrest
    rw [hfields.1] at ihx
    have hstep := b.take_telescope e a hrate hrem he
    simp only [TokenBucket.takeSeq, List.map_cons, List.sum_cons]
    push_cast
    ring_nf
    ring_nf at ihx hstep
    linarith

/-- A sequence of `take` calls preserves the fill rate and keeps the
leftover token count non-negative. -/
theorem TokenBucket.takeSeq_snd (calls : List (ℚ × Nat)) :
    ∀ b : TokenBucket, b.fill_rate ≠ 0 → 0 ≤ b.remaining →
    (b.takeSeq calls).2.fill_rate = b.fill_rate
    ∧ 0 ≤ (b.takeSeq calls).2.remaining := by
  induction calls with
  | nil => intro b _ hrem; exact ⟨rfl, hrem⟩
  | cons p rest ih =>
    intro b hrate hrem
    obtain ⟨e, a⟩ := p
    have hfields := b.take_snd_fields e a
    have hrate2 : (b.take e a).2.fill_rate ≠ 0 := by rw [hfields.1]; exact hrate
    have hrem2 := b.take_snd_remaining_nonneg e a hrate
    have ihx := ih (b.take e a).2 hrate2 hrem2
    simp only [TokenBucket.takeSeq]
    exact ⟨ihx.1.trans hfields.1, ihx.2⟩

/-- Inversion for a successful construction: the fields are as initialised. -/
theorem TokenBucket.with_capacity_inv (rate cap : Nat) (b : TokenBucket)
    (h : TokenBucket.with_capacity rate cap = some b) :
    b = ⟨rate, cap, 0⟩ := by
  by_cases hc : rate ≠ 0 ∧ cap = 0
  · simp [TokenBucket.with_capacity, hc] at h
  · simp [TokenBucket.with_capacity, hc] at h
    exact h.symm

/-- C2: for every bucket with a positive fill rate satisfying the bucket
invariant, and every finite sequence of `take` calls with non-negative
elapsed times between them, the total granted amount over the sequence is
at most `capacity + fill_rate * Δt`, where `Δt` is the total elapsed
time. -/
theorem C2_bounded_grant (b : TokenBucket) (calls : List (ℚ × Nat))
    (hrate : b.fill_rate ≠ 0) (hrem0 : 0 ≤ b.remaining)
    (hremc : b.remaining ≤ (b.capacity : ℚ))
    (hpos : ∀ p ∈ calls, 0 ≤ p.1) :
    ((b.takeSeq calls).1 : ℚ)
      ≤ (b.capacity : ℚ) + (b.fill_rate : ℚ) * (calls.map Prod.fst).sum := by
  have h := TokenBucket.takeSeq_telescope calls b hrate hrem0 hpos
  have h2 := (TokenBucket.takeSeq_snd calls b hrate hrem0).2
  linarith

theorem C2_bounded_grant_witness :
    (((TokenBucket.mk 2 3 0).takeSeq [((1 : ℚ), 5), ((1 : ℚ), 4)]).1 : ℚ)
      ≤ ((TokenBucket.mk 2 3 0).capacity : ℚ)
          + ((TokenBucket.mk 2 3 0).fill_rate : ℚ)
            * (([((1 : ℚ), 5), ((1 : ℚ), 4)].map Prod.fst).sum) :=
  C2_bounded_grant ⟨2, 3, 0⟩ [((1 : ℚ), 5), ((1 : ℚ), 4)]
    (by decide) (by decide) (by decide) (by decide)

/-- C3: when `fill_rate = 0` the bucket is unlimited: `take` returns exactly
the requested amount and leaves the bucket untouched, whatever its
`remaining` and `capacity` fields hold. -/
theorem C3_take_unlimited (b : TokenBucket) (e : ℚ) (a : Nat)
    (h : b.fill_rate = 0) : b.take e a = (a, b) := by
  simp [TokenBucket.take, h]

theorem C3_take_unlimited_witness :
    (TokenBucket.mk 0 7 (5 / 2)).fill_rate = 0
    ∧ (TokenBucket.mk 0 7 (5 / 2)).take 3 9 = (9, TokenBucket.mk 0 7 (5 / 2)) :=
  ⟨rfl, C3_take_unlimited (TokenBucket.mk 0 7 (5 / 2)) 3 9 rfl⟩

/-- C4: the invariant `0 ≤ remaining ≤ capacity` holds after construction
and is preserved by every `take` call on a bucket with nonzero fill rate,
for every requested amount and every elapsed time. -/
theorem C4_invariant :
    (∀ (rate cap : Nat) (b : TokenBucket),
        TokenBucket.with_capacity rate cap = some b →
        0 ≤ b.remaining ∧ b.remaining ≤ (b.capacity : ℚ))
    ∧ (∀ b : TokenBucket, b.fill_rate ≠ 0 → ∀ (e : ℚ) (a : Nat),
        0 ≤ (b.take e a).2.remaining
        ∧ (b.take e a).2.remaining ≤ ((b.take e a).2.capacity : ℚ)) := by
  constructor
  · intro rate cap b h
    have hb := TokenBucket.with_capacity_inv rate cap b h
    subst hb
    exact ⟨le_refl 0, Nat.cast_nonneg cap⟩
  · intro b hrate e a
    refine ⟨b.take_snd_remaining_nonneg e a hrate, ?_⟩
    rw [b.take_snd_remaining e a hrate, (b.take_snd_fields e a).2]
    refine max_le ?_ (Nat.cast_nonneg _)
    have h1 := b.refill_le_capacity e
    have h2 : (0 : ℚ) ≤ (((b.take e a).1 : Nat) : ℚ) := Nat.cast_nonneg _
    linarith

theorem C4_invariant_witness :
    (0 ≤ (TokenBucket.mk 2 3 0).remaining
      ∧ (TokenBucket.mk 2 3 0).remaining ≤ ((TokenBucket.mk 2 3 0).capacity : ℚ))
    ∧ (0 ≤ ((TokenBucket.mk 2 3 1).take 1 5).2.remaining
      ∧ ((TokenBucket.mk 2 3 1).take 1 5).2.remaining
          ≤ (((TokenBucket.mk 2 3 1).take 1 5).2.capacity : ℚ)) :=
  ⟨C4_invariant.1 2 3 (TokenBucket.mk 2 3 0) (by decide),
   C4_invariant.2 (TokenBucket.mk 2 3 1) (by decide) 1 5⟩

/-- C5: on a bucket with nonzero fill rate, non-negative elapsed time and
non-negative leftover, `take` refills to
`min (capacity) (remaining + elapsed * fill_rate)`, grants
`min (floor refilled) requested`, and leaves
`max 0 (refilled - granted)` behind, with the other fields unchanged. -/
theorem C5_take_algorithm (b : TokenBucket) (e : ℚ) (a : Nat)
    (hrate : b.fill_rate ≠ 0) (he : 0 ≤ e) (hrem : 0 ≤ b.remaining) :
    ((b.take e a).1 : ℤ)
        = min ⌊min ((b.capacity : ℚ)) (b.remaining + e * (b.fill_rate : ℚ))⌋ (a : ℤ)
    ∧ (b.take e a).2.remaining
        = max 0 (min ((b.capacity : ℚ)) (b.remaining + e * (b.fill_rate : ℚ))
            - ((b.take e a).1 : ℚ))
    ∧ (b.take e a).2.fill_rate = b.fill_rate
    ∧ (b.take e a).2.capacity = b.capacity := by
  have hmin : min ((b.capacity : ℚ)) (b.remaining + e * (b.fill_rate : ℚ))
      = b.refill e := by
    rw [TokenBucket.refill, min_comm]
  have h0 : 0 ≤ b.refill e := b.refill_nonneg e hrem he
  have htn : (⌊b.refill e⌋.toNat : ℤ) = ⌊b.refill e⌋ :=
    Int.toNat_of_nonneg (Int.floor_nonneg.mpr h0)
  refine ⟨?_, ?_, (b.take_snd_fields e a).1, (b.take_snd_fields e a).2⟩
  · rw [hmin, b.take_fst e a hrate, Nat.cast_min, htn]
  · rw [hmin, b.take_snd_remaining e a hrate, max_comm]

theorem C5_take_algorithm_witness :
    (((TokenBucket.mk 2 3 1).take 1 5).1 : ℤ)
        = min ⌊min (((TokenBucket.mk 2 3 1).capacity : ℚ))
            ((TokenBucket.mk 2 3 1).remaining
              + 1 * ((TokenBucket.mk 2 3 1).fill_rate : ℚ))⌋ ((5 : Nat) : ℤ)
    ∧ ((TokenBucket.mk 2 3 1).take 1 5).2.remaining
        = max 0 (min (((TokenBucket.mk 2 3 1).capacity : ℚ))
            ((TokenBucket.mk 2 3 1).remaining
              + 1 * ((TokenBucket.mk 2 3 1).fill_rate : ℚ))
            - (((TokenBucket.mk 2 3 1).take 1 5).1 : ℚ))
    ∧ ((TokenBucket.mk 2 3 1).take 1 5).2.fill_rate
        = (TokenBucket.mk 2 3 1).fill_rate
    ∧ ((TokenBucket.mk 2 3 1).take 1 5).2.capacity
        = (TokenBucket.mk 2 3 1).capacity :=
  C5_take_algorithm (TokenBucket.mk 2 3 1) 1 5
    (by decide) (by decide) (by decide)

/-- C7: constructing a bucket with nonzero rate and zero capacity panics
(modelled as `none`); every other combination of rate and capacity
constructs a bucket without panicking. -/
theorem C7_with_capacity_panic :
    (∀ rate : Nat, rate ≠ 0 → TokenBucket.with_capacity rate 0 = none)
    ∧ (∀ rate cap : Nat, rate = 0 ∨ cap ≠ 0 →
        ∃ b, TokenBucket.with_capacity rate cap = some b) := by
  constructor
  · intro rate h
    simp [TokenBucket.with_capacity, h]
  · intro rate cap h
    refine ⟨⟨rate, cap, 0⟩, ?_⟩
    have hc : ¬(rate ≠ 0 ∧ cap = 0) := by
      rcases h with h | h
      · intro hcon; exact hcon.1 h
      · intro hcon; exact h hcon.2
    simp [TokenBucket.with_capacity, hc]

theorem C7_with_capacity_panic_witness :
    TokenBucket.with_capacity 1 0 = none
    ∧ ∃ b, TokenBucket.with_capacity 0 0 = some b :=
  ⟨C7_with_capacity_panic.1 1 (by decide),
   C7_with_capacity_panic.2 0 0 (Or.inl rfl)⟩

/-- C9: a freshly constructed bucket with nonzero fill rate starts empty:
a `take` with zero elapsed time grants `0` whatever amount is requested. -/
theorem C9_fresh_bucket_grants_zero (rate cap a : Nat) (b : TokenBucket)
    (hrate : rate ≠ 0) (hb : TokenBucket.with_capacity rate cap = some b) :
    (b.take 0 a).1 = 0 := by
  have hbv := TokenBucket.with_capacity_inv rate cap b hb
  subst hbv
  have hr : (TokenBucket.mk rate cap 0).fill_rate ≠ 0 := hrate
  rw [TokenBucket.take_fst _ _ _ hr]
  have hrf : (TokenBucket.mk rate cap 0).refill 0 = 0 := by
    simp only [TokenBucket.refill, zero_mul, add_zero]
    exact min_eq_left (Nat.cast_nonneg cap)
  rw [hrf]
  simp

theorem C9_fresh_bucket_grants_zero_witness :
    (1 : Nat) ≠ 0 ∧ ((TokenBucket.mk 1 1 0).take 0 5).1 = 0 :=
  ⟨by decide,
   C9_fresh_bucket_grants_zero 1 1 5 (TokenBucket.mk 1 1 0) (by decide) (by decide)⟩

/-- The copy loop moves an in-memory source to an in-memory sink in full,
from any starting quota index, accumulated count and sink prefix, provided
the quota function grants a positive amount at some index at or after every
index. -/
theorem copy_list_ok {α : Type} (quota : Nat → Nat → Nat)
    (hq : ∀ i, ∃ j, i ≤ j ∧ 0 < quota j BUFFER_SIZE) :
    ∀ (src : List α) (i : Nat) (ws : List α) (written : Nat),
      ∃ fuel, copy_with_speedlimit listRead listWrite quota fuel i src ws written
        = some (.ok (written + src.length, ws ++ src)) := by
  suffices H : ∀ (n : Nat) (src : List α), src.length = n →
      ∀ (i : Nat) (ws : List α) (written : Nat),
      ∃ fuel, copy_with_speedlimit listRead listWrite quota fuel i src ws written
        = some (.ok (written + src.length, ws ++ src)) by
    intro src i ws written
    exact H src.length src rfl i ws written
  intro n
  induction n using Nat.strong_induction_on with
  | _ n ih =>
    intro src hlen i ws written
    -- acting at an index whose clamped limit is positive
    have hact : ∀ i2 : Nat, quotaLimit quota i2 ≠ 0 →
        ∃ fuel, copy_with_speedlimit listRead listWrite quota fuel i2 src ws written
          = some (.ok (written + src.length, ws ++ src)) := by
      intro i2 hlim
      match hsrc : src with
      | [] =>
        refine ⟨1, ?_⟩
        simp [copy_with_speedlimit, hlim, listRead]
      | x :: xs =>
        obtain ⟨m, hm⟩ := Nat.exists_eq_succ_of_ne_zero hlim
        have hlt : (xs.drop m).length < n := by
          have : xs.length < n := by
            subst hlen; simp
          have := List.length_drop m xs
          omega
        obtain ⟨fuel2, hc⟩ := ih (xs.drop m).length hlt (xs.drop m) rfl (i2 + 1)
          (ws ++ (x :: xs.take m)) (written + (x :: xs.take m).length)
        refine ⟨fuel2 + 1, ?_⟩
        simp only [copy_with_speedlimit]
        rw [if_neg hlim, hm]
        simp only [listRead, List.take_succ_cons, List.drop_succ_cons, listWrite]
        rw [hc]
        have hsplit : (x :: xs.take m) ++ xs.drop m = x :: xs := by
          rw [List.cons_append, List.take_append_drop]
        have hlen2 : (x :: xs.take m).length + (xs.drop m).length
            = (x :: xs).length := by
          rw [← List.length_append, hsplit]
        have h1 : written + (x :: xs.take m).length + (xs.drop m).length
            = written + (x :: xs).length := by omega
        have h2 : (ws ++ (x :: xs.take m)) ++ xs.drop m = ws ++ (x :: xs) := by
          rw [List.append_assoc, hsplit]
        rw [h1, h2]
    obtain ⟨j, hij, hjpos⟩ := hq i
    have hjlim : quotaLimit quota j ≠ 0 := by
      have hb : 0 < BUFFER_SIZE := by decide
      have : 0 < quotaLimit quota j := lt_min_iff.mpr ⟨hjpos, hb⟩
      omega
    -- skip the zero-quota iterations up to index j
    have hskip : ∀ (d i2 : Nat), i2 + d = j →
        ∃ fuel, copy_with_speedlimit listRead listWrite quota fuel i2 src ws written
          = some (.ok (written + src.length, ws ++ src)) := by
      intro d
      induction d with
      | zero =>
        intro i2 h0
        have : i2 = j := by omega
        subst this
        exact hact i2 hjlim
      | succ d ihd =>
        intro i2 h0
        by_cases hz : quotaLimit quota i2 = 0
        · obtain ⟨fuel2, hc⟩ := ihd (i2 + 1) (by omega)
          refine ⟨fuel2 + 1, ?_⟩
          simp only [copy_with_speedlimit]
          rw [if_pos hz]
          exact hc
        · exact hact i2 hz
    exact hskip (j - i) i (by omega)

/-- C1: for every in-memory source and every quota function that grants a
positive amount at some index at or after every index (a positive grant
infinitely often), the copy terminates in some number of iterations, the
sink receives exactly the source bytes in order, and the returned count is
the source length; the empty source yields `Ok 0` with nothing written. -/
theorem C1_copy_fidelity {α : Type} (src : List α) (quota : Nat → Nat → Nat)
    (hq : ∀ i, ∃ j, i ≤ j ∧ 0 < quota j BUFFER_SIZE) :
    ∃ fuel, copy_with_speedlimit listRead listWrite quota fuel 0 src [] 0
      = some (.ok (src.length, src)) := by
  obtain ⟨fuel, hf⟩ := copy_list_ok quota hq src 0 [] 0
  refine ⟨fuel, ?_⟩
  simpa using hf

theorem C1_copy_fidelity_witness :
    ∃ fuel, copy_with_speedlimit listRead listWrite (fun _ r => r) fuel 0
      [1, 2, 3] ([] : List Nat) 0 = some (.ok (List.length [1, 2, 3], [1, 2, 3])) :=
  C1_copy_fidelity [1, 2, 3] (fun _ r => r)
    (fun i => ⟨i, Nat.le_refl i, (by decide : 0 < BUFFER_SIZE)⟩)

/-- C10: the per-iteration read length of the copy loop, which is the value
`quotaLimit` passed to `read`, never exceeds the 64 KiB internal buffer,
whatever the quota function returns; so the slice of the buffer is always
in bounds. -/
theorem C10_read_length_clamped (quota : Nat → Nat → Nat) (i : Nat) :
    quotaLimit quota i ≤ BUFFER_SIZE ∧ BUFFER_SIZE = 64 * 1024 :=
  ⟨min_le_right _ _, rfl⟩

/-- C6: per claimed job the task body emits exactly two events, first
`Started` then `Finished` carrying the download's outcome, and a failure of
resolving the source, creating the destination, or copying is carried as
the `Finished` error. -/
theorem C6_event_pairing {ε σ ω : Type} (i : Nat) (url name : String)
    (open_src : Except ε σ) (create_dest : Except ε ω)
    (copyStep : σ → ω → Except ε Nat) (flushStep : ω → Except ε Unit) :
    run_job i url name open_src create_dest copyStep flushStep
      = [(i, url, name, Progress.started),
         (i, url, name, Progress.finished
           (download_file open_src create_dest copyStep flushStep))]
    ∧ (∀ e, open_src = Except.error e →
        download_file open_src create_dest copyStep flushStep = Except.error e)
    ∧ (∀ s e, open_src = Except.ok s → create_dest = Except.error e →
        download_file open_src create_dest copyStep flushStep = Except.error e)
    ∧ (∀ s d e, open_src = Except.ok s → create_dest = Except.ok d →
        copyStep s d = Except.error e →
        download_file open_src create_dest copyStep flushStep = Except.error e) := by
  refine ⟨rfl, ?_, ?_, ?_⟩
  · intro e he
    subst he
    rfl
  · intro s e hs he
    subst hs
    subst he
    rfl
  · intro s d e hs hd hc
    subst hs
    subst hd
    simp [download_file, hc]

theorem C6_event_pairing_witness :
    run_job 0 "u" "n" (Except.error 7 : Except Nat Unit)
        (Except.ok () : Except Nat Unit)
        (fun _ _ => Except.ok 0) (fun _ => Except.ok ())
      = [(0, "u", "n", Progress.started),
         (0, "u", "n", Progress.finished
           (download_file (Except.error (7 : Nat) : Except Nat Unit)
             (Except.ok () : Except Nat Unit)
             (fun _ _ => Except.ok 0) (fun _ => Except.ok ())))]
    ∧ download_file (Except.error (7 : Nat) : Except Nat Unit)
        (Except.ok () : Except Nat Unit)
        (fun _ _ => Except.ok 0) (fun _ => Except.ok ()) = Except.error 7 := by
  have h := C6_event_pairing 0 "u" "n"
    (Except.error (7 : Nat) : Except Nat Unit) (Except.ok () : Except Nat Unit)
    (fun _ _ => Except.ok 0) (fun _ => Except.ok ())
  exact ⟨h.1, h.2.1 7 rfl⟩

/-- C8: in the copy loop, a read of `Ok(0)` ends the copy with
`Ok(written)`; an `Interrupted` read error makes the loop continue with the
next iteration; provided the writer never reports an interrupted error (as
Rust's `write_all` retries those internally), no error the copy returns has
kind `Interrupted`; a read error of any other kind, and a write error, are
returned and end the copy. -/
theorem C8_error_handling {α σ ω : Type} (read : σ → Nat → ReadResult α σ)
    (write_all : ω → List α → Except IoErr ω) (quota : Nat → Nat → Nat) :
    (∀ (fuel i : Nat) (rs rs2 : σ) (ws : ω) (written : Nat),
      quotaLimit quota i ≠ 0 →
      read rs (quotaLimit quota i) = .ok [] rs2 →
      copy_with_speedlimit read write_all quota (fuel + 1) i rs ws written
        = some (.ok (written, ws)))
    ∧ (∀ (fuel i : Nat) (rs rs2 : σ) (ws : ω) (written : Nat) (e : IoErr),
      quotaLimit quota i ≠ 0 →
      read rs (quotaLimit quota i) = .err e rs2 →
      e.kind = ErrKind.interrupted →
      copy_with_speedlimit read write_all quota (fuel + 1) i rs ws written
        = copy_with_speedlimit read write_all quota fuel (i + 1) rs2 ws written)
    ∧ ((∀ (ws : ω) (data : List α) (e : IoErr),
        write_all ws data = .error e → e.kind ≠ ErrKind.interrupted) →
      ∀ (fuel i : Nat) (rs : σ) (ws : ω) (written : Nat) (e : IoErr),
        copy_with_speedlimit read write_all quota fuel i rs ws written
          = some (.error e) →
        e.kind ≠ ErrKind.interrupted)
    ∧ (∀ (fuel i : Nat) (rs rs2 : σ) (ws : ω) (written : Nat) (e : IoErr),
      quotaLimit quota i ≠ 0 →
      read rs (quotaLimit quota i) = .err e rs2 →
      e.kind ≠ ErrKind.interrupted →
      copy_with_speedlimit read write_all quota (fuel + 1) i rs ws written
        = some (.error e))
    ∧ (∀ (fuel i : Nat) (rs rs2 : σ) (ws : ω) (written : Nat) (d : α)
        (ds : List α) (e : IoErr),
      quotaLimit quota i ≠ 0 →
      read rs (quotaLimit quota i) = .ok (d :: ds) rs2 →
      write_all ws (d :: ds) = .error e →
      copy_with_speedlimit read write_all quota (fuel + 1) i rs ws written
        = some (.error e)) := by
  refine ⟨?_, ?_, ?_, ?_, ?_⟩
  · intro fuel i rs rs2 ws written hq0 hr
    simp only [copy_with_speedlimit]
    rw [if_neg hq0, hr]
  · intro fuel i rs rs2 ws written e hq0 hr hk
    simp only [copy_with_speedlimit]
    rw [if_neg hq0, hr]
    simp only [hk, reduceIte]
  · intro hwrite fuel
    induction fuel with
    | zero =>
      intro i rs ws written e h
      simp [copy_with_speedlimit] at h
    | succ n ihf =>
      intro i rs ws written e h
      simp only [copy_with_speedlimit] at h
      by_cases hq0 : quotaLimit quota i = 0
      · rw [if_pos hq0] at h
        exact ihf _ _ _ _ _ h
      · rw [if_neg hq0] at h
        split at h
        · simp at h
        · split at h
          · rename_i hw
            simp only [Option.some.injEq, Except.error.injEq] at h
            subst h
            exact hwrite _ _ _ hw
          · exact ihf _ _ _ _ _ h
        · split at h
          · exact ihf _ _ _ _ _ h
          · rename_i hk
            simp only [Option.some.injEq, Except.error.injEq] at h
            subst h
            exact hk
  · intro fuel i rs rs2 ws written e hq0 hr hk
    simp only [copy_with_speedlimit]
    rw [if_neg hq0, hr]
    simp only [hk, reduceIte]
  · intro fuel i rs rs2 ws written d ds e hq0 hr hw
    simp only [copy_with_speedlimit]
    rw [if_neg hq0, hr]
    simp only [hw]

theorem C8_error_handling_witness :
    copy_with_speedlimit c8Read c8Write c8Quota 1 0 [] [] 0
      = some (.ok (0, []))
    ∧ copy_with_speedlimit c8Read c8Write c8Quota 1 0
        [ReadEv.fail ErrKind.interrupted] [] 0
      = copy_with_speedlimit c8Read c8Write c8Quota 0 1 [] [] 0
    ∧ (IoErr.mk (ErrKind.other 3)).kind ≠ ErrKind.interrupted
    ∧ copy_with_speedlimit c8Read c8Write c8Quota 1 0
        [ReadEv.fail (ErrKind.other 3)] [] 0
      = some (.error ⟨ErrKind.other 3⟩)
    ∧ copy_with_speedlimit c8Read c8Write c8Quota 1 0
        [ReadEv.chunk [9]] [] 0
      = some (.error ⟨ErrKind.other 5⟩) := by
  have h := C8_error_handling c8Read c8Write c8Quota
  refine ⟨h.1 0 0 [] [] [] 0 (by decide) rfl,
          h.2.1 0 0 [ReadEv.fail ErrKind.interrupted] [] [] 0
            ⟨ErrKind.interrupted⟩ (by decide) rfl rfl,
          h.2.2.1 ?_ 1 0 [ReadEv.fail (ErrKind.other 3)] [] 0
            ⟨ErrKind.other 3⟩ rfl,
          h.2.2.2.1 0 0 [ReadEv.fail (ErrKind.other 3)] [] [] 0
            ⟨ErrKind.other 3⟩ (by decide) rfl (by decide),
          h.2.2.2.2 0 0 [ReadEv.chunk [9]] [] [] 0 9 [] ⟨ErrKind.other 5⟩
            (by decide) rfl rfl⟩
  intro ws data e hw
  have he : e = ⟨ErrKind.other 5⟩ := by
    have : (Except.error ⟨ErrKind.other 5⟩ : Except IoErr (List Nat))
        = .error e := hw
    exact (Except.error.inj this).symm
  subst he
  decide
